import Mathlib

set_option maxHeartbeats 1000000
set_option maxRecDepth 10000

/-!
Verification of the analytical core of the autocropper repository
(`autocropper/ExperimentalFunctions.cpp`) against its design document.

Images are modelled as a width, a height and a total pixel function
`Nat → Nat → Nat`; pixel values of a single-channel byte image lie in
`[0, 256)` (stated as a hypothesis where a claim needs it).  `cv::Rect`
is modelled with `Int` fields, since the C++ fields are `int` and the
code can produce negative widths/heights.
-/

namespace Autocropper

/-- A single-channel image: a `width × height` grid of byte intensity
samples, origin top-left, accessed as `pixel x y` with `x` the column
and `y` the row. -/
structure Image where
  width : Nat
  height : Nat
  pixel : Nat → Nat → Nat

/-- The cv::Rect type: four machine integers (x, y, width, height). -/
structure Rect where
  x : Int
  y : Int
  w : Int
  h : Int
deriving DecidableEq

/-! ## computeGelLocation (ExperimentalFunctions.cpp lines 131-162) -/

/-- The points visited by the double scan loop of `computeGelLocation`:
`i` (the column) is the outer loop, `j` (the row) the inner one. -/
def gelPoints (w h : Nat) : List (Nat × Nat) :=
  (List.range w).flatMap (fun i => (List.range h).map (fun j => (i, j)))

/-- One iteration of the scan loop body of `computeGelLocation`.  The
state is `(leftMost, rightMost, topMost, bottomMost)`; each bound is
updated only when the current pixel is non-zero. -/
def gelUpdate (img : Image) (s : Int × Int × Int × Int) (p : Nat × Nat) :
    Int × Int × Int × Int :=
  if img.pixel p.1 p.2 ≠ 0 then
    (if (p.1 : Int) < s.1 then (p.1 : Int) else s.1,
     if (p.1 : Int) > s.2.1 then (p.1 : Int) else s.2.1,
     if (p.2 : Int) < s.2.2.1 then (p.2 : Int) else s.2.2.1,
     if (p.2 : Int) > s.2.2.2 then (p.2 : Int) else s.2.2.2)
  else s

/-- Embedding of `computeGelLocation`: scans every pixel, tracking the extreme
coordinates of non-zero pixels, starting from the sentinel state
`(width-1, 0, height-1, 0)`, and returns
`Rect(leftMost, topMost, rightMost-leftMost, bottomMost-topMost)`. -/
def computeGelLocation (img : Image) : Rect :=
  let s := (gelPoints img.width img.height).foldl (gelUpdate img)
    ((img.width : Int) - 1, 0, (img.height : Int) - 1, 0)
  ⟨s.1, s.2.2.1, s.2.1 - s.1, s.2.2.2 - s.2.2.1⟩

/-- Scalar view of a min-tracking component of the scan loop. -/
def gelScalarMin (img : Image) (g : Nat × Nat → Int) (L : List (Nat × Nat))
    (a : Int) : Int :=
  L.foldl (fun acc p => if img.pixel p.1 p.2 ≠ 0 then min (g p) acc else acc) a

/-- Scalar view of a max-tracking component of the scan loop. -/
def gelScalarMax (img : Image) (g : Nat × Nat → Int) (L : List (Nat × Nat))
    (a : Int) : Int :=
  L.foldl (fun acc p => if img.pixel p.1 p.2 ≠ 0 then max (g p) acc else acc) a

/-- Witness image for claim C1: a 4×3 image whose only non-zero pixel
is at (1, 2). -/
def imgC1 : Image := ⟨4, 3, fun x y => if x = 1 ∧ y = 2 then 5 else 0⟩

/-- A 1×1 all-zero image. -/
def imgZero1 : Image := ⟨1, 1, fun _ _ => 0⟩

/-- A 2×2 all-zero image. -/
def imgZero2 : Image := ⟨2, 2, fun _ _ => 0⟩

/-! ## computeInnermostRectangle (ExperimentalFunctions.cpp lines 70-121) -/

/-- The upward ray scan of `computeInnermostRectangle`: starting at row
`i` (the center row) and walking toward row 0 along column `cx`, return
the first row holding a non-zero pixel; if none exists the bound keeps
its initialization 0. -/
def scanUp (img : Image) (cx : Nat) : Nat → Nat
  | 0 => 0
  | i + 1 => if img.pixel cx (i + 1) ≠ 0 then i + 1 else scanUp img cx i

/-- The downward ray scan: starting at row `i` and walking toward the
last row along column `cx`, return the first row holding a non-zero
pixel; if none exists the bound keeps its initialization `height`. -/
def scanDown (img : Image) (cx : Nat) (i : Nat) : Nat :=
  if h : i < img.height then
    (if img.pixel cx i ≠ 0 then i else scanDown img cx (i + 1))
  else img.height
termination_by img.height - i

/-- The leftward ray scan along row `cy`, defaulting to 0. -/
def scanLeft (img : Image) (cy : Nat) : Nat → Nat
  | 0 => 0
  | i + 1 => if img.pixel (i + 1) cy ≠ 0 then i + 1 else scanLeft img cy i

/-- The rightward ray scan along row `cy`, defaulting to `width`. -/
def scanRight (img : Image) (cy : Nat) (i : Nat) : Nat :=
  if h : i < img.width then
    (if img.pixel i cy ≠ 0 then i else scanRight img cy (i + 1))
  else img.width
termination_by img.width - i

/-- Embedding of `computeInnermostRectangle`: scans four rays from the center pixel
`(width/2, height/2)` and returns `Rect(l, u, r-l, d-u)`. -/
def computeInnermostRectangle (img : Image) : Rect :=
  let cx := img.width / 2
  let cy := img.height / 2
  let u := scanUp img cx cy
  let d := scanDown img cx cy
  let l := scanLeft img cy cx
  let r := scanRight img cy cx
  ⟨(l : Int), (u : Int), (r : Int) - (l : Int), (d : Int) - (u : Int)⟩

/-- Witness image for claim C3: a 5×5 image whose only non-zero pixel
is at (1, 3). -/
def imgC3 : Image := ⟨5, 5, fun x y => if x = 1 ∧ y = 3 then 7 else 0⟩

/-- Witness image for claim C10: a 3×3 image whose center pixel (1, 1)
is non-zero. -/
def imgC10 : Image := ⟨3, 3, fun x y => if x = 1 ∧ y = 1 then 8 else 0⟩

/-! ## plotHistogram (ExperimentalFunctions.cpp lines 305-341) -/

/-- The pixel values of an image in the row-major order in which
`MatIterator_` visits them. -/
def pixelList (img : Image) : List Nat :=
  (List.range img.height).flatMap
    (fun y => (List.range img.width).map (fun x => img.pixel x y))

/-- The 256-bin tally loop of `plotHistogram`: one count per pixel,
binned by intensity value.  (The C++ stores counts in `double`; the
counts are small integers, modelled exactly as `Nat`.) -/
def histCounts (img : Image) : Nat → Nat :=
  (pixelList img).foldl
    (fun hst v => fun b => if b = v then hst b + 1 else hst b) (fun _ => 0)

/-- The maximum-bin search loop of `plotHistogram`: the running maximum
starts at 0 and is replaced whenever a bin count exceeds it. -/
def histMax (img : Image) : Nat :=
  (List.range 256).foldl
    (fun m b => if histCounts img b > m then histCounts img b else m) 0

/-- Witness image for claim C9: a 2×3 image with constant value 7. -/
def imgC9 : Image := ⟨2, 3, fun _ _ => 7⟩

/-- An image with no pixels at all: the only input on which the
maximum histogram bin count of `plotHistogram` is zero. -/
def emptyImage : Image := ⟨0, 0, fun _ _ => 0⟩

/-! ## generateEnhancedCenterMask (ExperimentalFunctions.cpp lines 350-362)

The helpers `padImage`/`removePadding` live in OcvUtilities, which is
not under src/, and the distance computation is cv::distanceTransform.
The per-pixel value is therefore modelled from the spec (section 4.5):
the all-ones mask is padded on all sides with background, every pixel
receives its Chebyshev (CV_DIST_C) distance to the nearest zero pixel —
which is the synthetic border, so the distance at (x, y) inside the
w×h mask is `min(x+1, w-x, y+1, h-y)`, independent of the padding
amount — the values are normalized by the maximum found by
`minMaxLoc`, and the padding is stripped. -/

/-- Modelled from the spec: the Chebyshev distance from pixel (x, y) of
the padded all-ones w×h mask to the nearest background (padding) pixel:
`min(x+1, w-x, y+1, h-y)`. -/
def chebDist (w h x y : Nat) : Nat :=
  min (min (x + 1) (w - x)) (min (y + 1) (h - y))

/-- The maximum distance value over the mask (`minMaxLoc`). -/
def maskMax (w h : Nat) : Nat :=
  (gelPoints w h).foldl (fun m p => Nat.max m (chebDist w h p.1 p.2)) 0

/-- Embedding of `generateEnhancedCenterMask`, per pixel: the distance-transform
value normalized by its maximum (the C++ multiplies by `1/maxVal` in
floating point; the values are modelled as exact rationals). -/
def generateEnhancedCenterMask (w h x y : Nat) : ℚ :=
  (chebDist w h x y : ℚ) / (maskMax w h : ℚ)

/-! ## computeForegroundImages (ExperimentalFunctions.cpp lines 232-262) -/

/-- The background estimator created by
`createBackgroundSubtractorMOG2`: an external OpenCV component, modelled
abstractly as an initial state and a transition `apply` that consumes a
frame and yields the updated state and the binary foreground mask.  The
claim about `computeForegroundImages` concerns only the loop control
flow, which does not depend on the estimator. -/
structure BGModel (S : Type) where
  init : S
  apply : S → Image → S × Image

/-- The statement `foregroundImage = Scalar::all(0); image.copyTo(foregroundImage,
foregroundMask)`: keep the source pixel where the mask is non-zero,
zero elsewhere. -/
def copyMasked (img mask : Image) : Image :=
  ⟨img.width, img.height, fun x y => if mask.pixel x y ≠ 0 then img.pixel x y else 0⟩

/-- The loop of `computeForegroundImages` with its counter `i`: every
frame updates the estimator and derives a foreground image, but the
image is appended to the result (cloned) only when the incremented
counter exceeds 1. -/
def computeForegroundImagesAux {S : Type} (M : BGModel S) :
    S → Nat → List Image → List Image
  | _, _, [] => []
  | s, i, img :: rest =>
    (if i + 1 > 1 then [copyMasked img (M.apply s img).2] else [])
      ++ computeForegroundImagesAux M (M.apply s img).1 (i + 1) rest

/-- Embedding of `computeForegroundImages`: the frame counter starts at 0. -/
def computeForegroundImages {S : Type} (M : BGModel S) (images : List Image) :
    List Image :=
  computeForegroundImagesAux M M.init 0 images

/-- The per-frame foreground outputs without the `i > 1` guard: the
image the loop body derives from every frame, used to state which
outputs the guarded loop keeps. -/
def foregroundsAll {S : Type} (M : BGModel S) : S → List Image → List Image
  | _, [] => []
  | s, img :: rest =>
    copyMasked img (M.apply s img).2 :: foregroundsAll M (M.apply s img).1 rest

/-! ## findLargestHorizontalLines (ExperimentalFunctions.cpp lines 169-177)

`morphologyEx(image, dst, MORPH_OPEN, horizElem)` is erosion followed
by dilation with a `width/2 × 1` MORPH_RECT element.  Grayscale erosion
takes the minimum over the window `x + o` for the element offsets `o`
(anchored at the element center `k/2`); OpenCV flips the element for
dilation, which therefore takes the maximum over `x - o`.  With the
default `morphologyDefaultBorderValue` border, positions outside the
image do not contribute to the minimum/maximum. -/

/-- The relative horizontal offsets of the `k × 1` MORPH_RECT
structuring element with OpenCV's default anchor `(k/2, 0)`. -/
def seOffsets (k : Nat) : List Int :=
  (List.range k).map (fun (j : Nat) => (j : Int) - ((k / 2 : Nat) : Int))

/-- The in-image pixel values inside the window at `(x, y)` for the
given offsets; out-of-image positions are skipped (neutral border). -/
def windowVals (w : Nat) (f : Nat → Nat → Nat) (os : List Int) (x y : Nat) :
    List Nat :=
  os.filterMap (fun o =>
    if 0 ≤ (x : Int) + o ∧ (x : Int) + o < (w : Int)
    then some (f ((x : Int) + o).toNat y) else none)

/-- Minimum of a list of values with a default for the empty list (the
default is never reached at an in-image pixel, whose window contains
the pixel itself). -/
def listMinD : List Nat → Nat → Nat
  | [], d => d
  | a :: t, _ => t.foldl Nat.min a

/-- Maximum of a list of values with a default for the empty list. -/
def listMaxD : List Nat → Nat → Nat
  | [], d => d
  | a :: t, _ => t.foldl Nat.max a

/-- Embedding of cv::erode with a `k × 1` rectangular structuring element. -/
def erodeH (k : Nat) (img : Image) : Image :=
  ⟨img.width, img.height, fun x y =>
    listMinD (windowVals img.width img.pixel (seOffsets k) x y) 0⟩

/-- Embedding of cv::dilate with a `k × 1` rectangular structuring element; OpenCV
flips the element and anchor, so the offsets are negated. -/
def dilateH (k : Nat) (img : Image) : Image :=
  ⟨img.width, img.height, fun x y =>
    listMaxD (windowVals img.width img.pixel ((seOffsets k).map (fun o => -o)) x y) 0⟩

/-- Embedding of `findLargestHorizontalLines`: morphological opening with a
`width/2 × 1` line-shaped structuring element. -/
def findLargestHorizontalLines (img : Image) : Image :=
  dilateH (img.width / 2) (erodeH (img.width / 2) img)

/-- Witness image for claim C7: a 4×1 image with a short bright run. -/
def imgC7 : Image := ⟨4, 1, fun x _ => if x ≤ 1 then 9 else 0⟩

/-! ## computeGradientImage (ExperimentalFunctions.cpp lines 22-47) -/

/-- Embedding of cv::borderInterpolate with BORDER_REFLECT_101 (BORDER_DEFAULT):
reflection that does not repeat the edge pixel; a single reflection
suffices for the 3×3 kernel, and for a length-1 axis every index maps
to 0. -/
def reflect101 (n : Nat) (i : Int) : Nat :=
  if n = 1 then 0
  else if i < 0 then (-i).toNat
  else if (n : Int) ≤ i then (2 * ((n : Int) - 1) - i).toNat
  else i.toNat

/-- Pixel access with the reflected border extension. -/
def pixGet (img : Image) (x y : Int) : Nat :=
  img.pixel (reflect101 img.width x) (reflect101 img.height y)

/-- The first-derivative Sobel coefficient for offsets -1, 0, 1. -/
def derivK (o : Int) : Int :=
  if o = -1 then -1 else if o = 1 then 1 else 0

/-- The smoothing Sobel coefficient for offsets -1, 0, 1. -/
def smoothK (o : Int) : Int :=
  if o = 0 then 2 else 1

/-- The 3×3 kernel offsets. -/
def sobelOffsets : List Int := [-1, 0, 1]

/-- The raw x-derivative response of `Sobel(image, ..., 1, 0, 3, 1, 0,
BORDER_DEFAULT)`: correlation with the outer product of the [1, 2, 1]
row smoothing and the [-1, 0, 1] column derivative. -/
def sobelXRaw (img : Image) (x y : Nat) : Int :=
  (sobelOffsets.map (fun dy =>
    (sobelOffsets.map (fun dx =>
      smoothK dy * derivK dx
        * (pixGet img ((x : Int) + dx) ((y : Int) + dy) : Int))).sum)).sum

/-- The raw y-derivative response of `Sobel(image, ..., 0, 1, ...)`. -/
def sobelYRaw (img : Image) (x y : Nat) : Int :=
  (sobelOffsets.map (fun dy =>
    (sobelOffsets.map (fun dx =>
      derivK dy * smoothK dx
        * (pixGet img ((x : Int) + dx) ((y : Int) + dy) : Int))).sum)).sum

/-- Embedding of saturate_cast to uchar. -/
def saturateByte (v : Int) : Nat :=
  if v < 0 then 0 else if 255 < v then 255 else v.toNat

/-- The Sobel output at depth CV_8UC1: the raw response saturated to a
byte, so negative responses are clamped to 0 before anything else. -/
def sobelX8 (img : Image) (x y : Nat) : Nat := saturateByte (sobelXRaw img x y)

/-- The y-derivative Sobel output at depth CV_8UC1. -/
def sobelY8 (img : Image) (x y : Nat) : Nat := saturateByte (sobelYRaw img x y)

/-- Embedding of `convertScaleAbs` with scale 1 and shift 0 on byte input:
`saturate_cast<uchar>(|v*1 + 0|)`. -/
def convertScaleAbsByte (v : Nat) : Nat :=
  saturateByte ((((v : Int) * 1 + 0).natAbs : Nat) : Int)

/-- Embedding of `cvRound` (round half to even) of `(a+b)/2`; `a*0.5 + b*0.5` is
exact in double for byte inputs. -/
def roundHalfEvenHalf (s : Nat) : Nat :=
  if s % 2 = 0 then s / 2 else if (s / 2) % 2 = 0 then s / 2 else s / 2 + 1

/-- Embedding of `addWeighted(abs_grad_x, 0.5, abs_grad_y, 0.5, 0, grad)` per pixel:
saturate-cast of the rounded average. -/
def addWeightedHalf (a b : Nat) : Nat :=
  saturateByte ((roundHalfEvenHalf (a + b) : Nat) : Int)

/-- Embedding of `computeGradientImage`: Sobel x and y responses at byte depth,
absolute-value scaling, equally-weighted sum. -/
def computeGradientImage (img : Image) : Image :=
  ⟨img.width, img.height, fun x y =>
    addWeightedHalf (convertScaleAbsByte (sobelX8 img x y))
      (convertScaleAbsByte (sobelY8 img x y))⟩

/-- The gradient pixel the spec describes: each raw directional
response is first converted by absolute-value scaling to the byte
range (i.e. `saturate(|raw|)`, keeping the magnitude of negative
responses), then the two are averaged.  A second definition following
the spec words, to be compared with `computeGradientImage`. -/
def specGradientPixel (img : Image) (x y : Nat) : Nat :=
  addWeightedHalf (saturateByte (((sobelXRaw img x y).natAbs : Nat) : Int))
    (saturateByte (((sobelYRaw img x y).natAbs : Nat) : Int))

/-- Counterexample image for claim C8: a bright-to-dark vertical edge
(255 in column 0, 0 elsewhere). -/
def imgC8 : Image := ⟨3, 3, fun x _ => if x = 0 then 255 else 0⟩

theorem mem_gelPoints {w h : Nat} (p : Nat × Nat) :
    p ∈ gelPoints w h ↔ p.1 < w ∧ p.2 < h := by
  obtain ⟨x, y⟩ := p
  simp [gelPoints]

theorem gelScalarMin_le_init (img : Image) (g : Nat × Nat → Int) :
    ∀ (L : List (Nat × Nat)) (a : Int), gelScalarMin img g L a ≤ a := by
  intro L
  induction L with
  | nil => intro a; exact le_refl a
  | cons q t ih =>
    intro a
    have h1 : gelScalarMin img g (q :: t) a
        = gelScalarMin img g t (if img.pixel q.1 q.2 ≠ 0 then min (g q) a else a) := rfl
    rw [h1]
    refine le_trans (ih _) ?_
    split
    · exact min_le_right _ _
    · exact le_refl a

theorem gelScalarMax_init_le (img : Image) (g : Nat × Nat → Int) :
    ∀ (L : List (Nat × Nat)) (a : Int), a ≤ gelScalarMax img g L a := by
  intro L
  induction L with
  | nil => intro a; exact le_refl a
  | cons q t ih =>
    intro a
    have h1 : gelScalarMax img g (q :: t) a
        = gelScalarMax img g t (if img.pixel q.1 q.2 ≠ 0 then max (g q) a else a) := rfl
    rw [h1]
    refine le_trans ?_ (ih _)
    split
    · exact le_max_right _ _
    · exact le_refl a

theorem gelScalarMin_le_of_mem (img : Image) (g : Nat × Nat → Int) :
    ∀ (L : List (Nat × Nat)) (a : Int) (p : Nat × Nat), p ∈ L →
      img.pixel p.1 p.2 ≠ 0 → gelScalarMin img g L a ≤ g p := by
  intro L
  induction L with
  | nil => intro a p hp; exact absurd hp (List.not_mem_nil p)
  | cons q t ih =>
    intro a p hp hnz
    have h1 : gelScalarMin img g (q :: t) a
        = gelScalarMin img g t (if img.pixel q.1 q.2 ≠ 0 then min (g q) a else a) := rfl
    rw [h1]
    rcases List.mem_cons.mp hp with rfl | hp
    · rw [if_pos hnz]
      exact le_trans (gelScalarMin_le_init img g t _) (min_le_left _ _)
    · exact ih _ p hp hnz

theorem gelScalarMax_ge_of_mem (img : Image) (g : Nat × Nat → Int) :
    ∀ (L : List (Nat × Nat)) (a : Int) (p : Nat × Nat), p ∈ L →
      img.pixel p.1 p.2 ≠ 0 → g p ≤ gelScalarMax img g L a := by
  intro L
  induction L with
  | nil => intro a p hp; exact absurd hp (List.not_mem_nil p)
  | cons q t ih =>
    intro a p hp hnz
    have h1 : gelScalarMax img g (q :: t) a
        = gelScalarMax img g t (if img.pixel q.1 q.2 ≠ 0 then max (g q) a else a) := rfl
    rw [h1]
    rcases List.mem_cons.mp hp with rfl | hp
    · rw [if_pos hnz]
      exact le_trans (le_max_left _ _) (gelScalarMax_init_le img g t _)
    · exact ih _ p hp hnz

theorem gelScalarMin_attains (img : Image) (g : Nat × Nat → Int) :
    ∀ (L : List (Nat × Nat)) (a : Int), gelScalarMin img g L a = a ∨
      ∃ p, p ∈ L ∧ img.pixel p.1 p.2 ≠ 0 ∧ gelScalarMin img g L a = g p := by
  intro L
  induction L with
  | nil => intro a; left; rfl
  | cons q t ih =>
    intro a
    have h1 : gelScalarMin img g (q :: t) a
        = gelScalarMin img g t (if img.pixel q.1 q.2 ≠ 0 then min (g q) a else a) := rfl
    rw [h1]
    rcases ih (if img.pixel q.1 q.2 ≠ 0 then min (g q) a else a) with h | ⟨p, hp, hnz, he⟩
    · rw [h]
      by_cases hq : img.pixel q.1 q.2 ≠ 0
      · rw [if_pos hq]
        rcases le_total (g q) a with hle | hle
        · right
          exact ⟨q, List.mem_cons_self q t, hq, min_eq_left hle⟩
        · left
          exact min_eq_right hle
      · rw [if_neg hq]
        left
        rfl
    · right
      exact ⟨p, List.mem_cons_of_mem q hp, hnz, he⟩

theorem gelScalarMax_attains (img : Image) (g : Nat × Nat → Int) :
    ∀ (L : List (Nat × Nat)) (a : Int), gelScalarMax img g L a = a ∨
      ∃ p, p ∈ L ∧ img.pixel p.1 p.2 ≠ 0 ∧ gelScalarMax img g L a = g p := by
  intro L
  induction L with
  | nil => intro a; left; rfl
  | cons q t ih =>
    intro a
    have h1 : gelScalarMax img g (q :: t) a
        = gelScalarMax img g t (if img.pixel q.1 q.2 ≠ 0 then max (g q) a else a) := rfl
    rw [h1]
    rcases ih (if img.pixel q.1 q.2 ≠ 0 then max (g q) a else a) with h | ⟨p, hp, hnz, he⟩
    · rw [h]
      by_cases hq : img.pixel q.1 q.2 ≠ 0
      · rw [if_pos hq]
        rcases le_total a (g q) with hle | hle
        · right
          exact ⟨q, List.mem_cons_self q t, hq, max_eq_left hle⟩
        · left
          exact max_eq_right hle
      · rw [if_neg hq]
        left
        rfl
    · right
      exact ⟨p, List.mem_cons_of_mem q hp, hnz, he⟩

theorem gelUpdate_fst (img : Image) (s : Int × Int × Int × Int) (p : Nat × Nat) :
    (gelUpdate img s p).1
      = if img.pixel p.1 p.2 ≠ 0 then min ((p.1 : Int)) s.1 else s.1 := by
  unfold gelUpdate
  split
  · show (if (p.1 : Int) < s.1 then (p.1 : Int) else s.1) = min ((p.1 : Int)) s.1
    rcases lt_or_le ((p.1 : Int)) s.1 with hlt | hle
    · rw [if_pos hlt, min_eq_left (le_of_lt hlt)]
    · rw [if_neg (not_lt.mpr hle), min_eq_right hle]
  · rfl

theorem gelUpdate_right (img : Image) (s : Int × Int × Int × Int) (p : Nat × Nat) :
    (gelUpdate img s p).2.1
      = if img.pixel p.1 p.2 ≠ 0 then max ((p.1 : Int)) s.2.1 else s.2.1 := by
  unfold gelUpdate
  split
  · show (if (p.1 : Int) > s.2.1 then (p.1 : Int) else s.2.1) = max ((p.1 : Int)) s.2.1
    rcases lt_or_le s.2.1 ((p.1 : Int)) with hlt | hle
    · rw [if_pos hlt, max_eq_left (le_of_lt hlt)]
    · rw [if_neg (not_lt.mpr hle), max_eq_right hle]
  · rfl

theorem gelUpdate_top (img : Image) (s : Int × Int × Int × Int) (p : Nat × Nat) :
    (gelUpdate img s p).2.2.1
      = if img.pixel p.1 p.2 ≠ 0 then min ((p.2 : Int)) s.2.2.1 else s.2.2.1 := by
  unfold gelUpdate
  split
  · show (if (p.2 : Int) < s.2.2.1 then (p.2 : Int) else s.2.2.1) = min ((p.2 : Int)) s.2.2.1
    rcases lt_or_le ((p.2 : Int)) s.2.2.1 with hlt | hle
    · rw [if_pos hlt, min_eq_left (le_of_lt hlt)]
    · rw [if_neg (not_lt.mpr hle), min_eq_right hle]
  · rfl

theorem gelUpdate_bot (img : Image) (s : Int × Int × Int × Int) (p : Nat × Nat) :
    (gelUpdate img s p).2.2.2
      = if img.pixel p.1 p.2 ≠ 0 then max ((p.2 : Int)) s.2.2.2 else s.2.2.2 := by
  unfold gelUpdate
  split
  · show (if (p.2 : Int) > s.2.2.2 then (p.2 : Int) else s.2.2.2) = max ((p.2 : Int)) s.2.2.2
    rcases lt_or_le s.2.2.2 ((p.2 : Int)) with hlt | hle
    · rw [if_pos hlt, max_eq_left (le_of_lt hlt)]
    · rw [if_neg (not_lt.mpr hle), max_eq_right hle]
  · rfl

theorem gel_foldl_fst (img : Image) :
    ∀ (L : List (Nat × Nat)) (s : Int × Int × Int × Int),
      (L.foldl (gelUpdate img) s).1
        = gelScalarMin img (fun p => (p.1 : Int)) L s.1 := by
  intro L
  induction L with
  | nil => intro s; rfl
  | cons q t ih =>
    intro s
    rw [List.foldl_cons, ih]
    show gelScalarMin img _ t (gelUpdate img s q).1
      = gelScalarMin img _ t (if img.pixel q.1 q.2 ≠ 0 then min ((q.1 : Int)) s.1 else s.1)
    rw [gelUpdate_fst]

theorem gel_foldl_right (img : Image) :
    ∀ (L : List (Nat × Nat)) (s : Int × Int × Int × Int),
      (L.foldl (gelUpdate img) s).2.1
        = gelScalarMax img (fun p => (p.1 : Int)) L s.2.1 := by
  intro L
  induction L with
  | nil => intro s; rfl
  | cons q t ih =>
    intro s
    rw [List.foldl_cons, ih]
    show gelScalarMax img _ t (gelUpdate img s q).2.1
      = gelScalarMax img _ t (if img.pixel q.1 q.2 ≠ 0 then max ((q.1 : Int)) s.2.1 else s.2.1)
    rw [gelUpdate_right]

theorem gel_foldl_top (img : Image) :
    ∀ (L : List (Nat × Nat)) (s : Int × Int × Int × Int),
      (L.foldl (gelUpdate img) s).2.2.1
        = gelScalarMin img (fun p => (p.2 : Int)) L s.2.2.1 := by
  intro L
  induction L with
  | nil => intro s; rfl
  | cons q t ih =>
    intro s
    rw [List.foldl_cons, ih]
    show gelScalarMin img _ t (gelUpdate img s q).2.2.1
      = gelScalarMin img _ t (if img.pixel q.1 q.2 ≠ 0 then min ((q.2 : Int)) s.2.2.1 else s.2.2.1)
    rw [gelUpdate_top]

theorem gel_foldl_bot (img : Image) :
    ∀ (L : List (Nat × Nat)) (s : Int × Int × Int × Int),
      (L.foldl (gelUpdate img) s).2.2.2
        = gelScalarMax img (fun p => (p.2 : Int)) L s.2.2.2 := by
  intro L
  induction L with
  | nil => intro s; rfl
  | cons q t ih =>
    intro s
    rw [List.foldl_cons, ih]
    show gelScalarMax img _ t (gelUpdate img s q).2.2.2
      = gelScalarMax img _ t (if img.pixel q.1 q.2 ≠ 0 then max ((q.2 : Int)) s.2.2.2 else s.2.2.2)
    rw [gelUpdate_bot]

theorem computeGelLocation_eq (img : Image) :
    computeGelLocation img =
      ⟨gelScalarMin img (fun p => (p.1 : Int)) (gelPoints img.width img.height) ((img.width : Int) - 1),
       gelScalarMin img (fun p => (p.2 : Int)) (gelPoints img.width img.height) ((img.height : Int) - 1),
       gelScalarMax img (fun p => (p.1 : Int)) (gelPoints img.width img.height) 0
         - gelScalarMin img (fun p => (p.1 : Int)) (gelPoints img.width img.height) ((img.width : Int) - 1),
       gelScalarMax img (fun p => (p.2 : Int)) (gelPoints img.width img.height) 0
         - gelScalarMin img (fun p => (p.2 : Int)) (gelPoints img.width img.height) ((img.height : Int) - 1)⟩ := by
  unfold computeGelLocation
  rw [Rect.mk.injEq]
  refine ⟨?_, ?_, ?_, ?_⟩
  · exact gel_foldl_fst img _ _
  · exact gel_foldl_top img _ _
  · rw [gel_foldl_right img _ _, gel_foldl_fst img _ _]
  · rw [gel_foldl_bot img _ _, gel_foldl_top img _ _]

theorem scanUp_eq_of_first (img : Image) (cx : Nat) (i : Nat) :
    ∀ j, i ≤ j → img.pixel cx i ≠ 0 →
      (∀ m, i < m → m ≤ j → img.pixel cx m = 0) → scanUp img cx j = i := by
  intro j
  induction j with
  | zero =>
    intro hij _ _
    interval_cases i
    rfl
  | succ n ih =>
    intro hij hnz hz
    by_cases hi : i = n + 1
    · subst hi
      unfold scanUp
      rw [if_pos hnz]
    · have hin : i ≤ n := by omega
      have hzn : img.pixel cx (n + 1) = 0 := hz (n + 1) (by omega) (le_refl _)
      unfold scanUp
      rw [if_neg (by simpa using hzn)]
      exact ih hin hnz (fun m hm1 hm2 => hz m hm1 (by omega))

theorem scanUp_eq_zero (img : Image) (cx : Nat) :
    ∀ j, (∀ m, m ≤ j → img.pixel cx m = 0) → scanUp img cx j = 0 := by
  intro j
  induction j with
  | zero => intro _; rfl
  | succ n ih =>
    intro hz
    unfold scanUp
    rw [if_neg (by simpa using hz (n + 1) (le_refl _))]
    exact ih (fun m hm => hz m (by omega))

theorem scanLeft_eq_of_first (img : Image) (cy : Nat) (i : Nat) :
    ∀ j, i ≤ j → img.pixel i cy ≠ 0 →
      (∀ m, i < m → m ≤ j → img.pixel m cy = 0) → scanLeft img cy j = i := by
  intro j
  induction j with
  | zero =>
    intro hij _ _
    interval_cases i
    rfl
  | succ n ih =>
    intro hij hnz hz
    by_cases hi : i = n + 1
    · subst hi
      unfold scanLeft
      rw [if_pos hnz]
    · have hin : i ≤ n := by omega
      have hzn : img.pixel (n + 1) cy = 0 := hz (n + 1) (by omega) (le_refl _)
      unfold scanLeft
      rw [if_neg (by simpa using hzn)]
      exact ih hin hnz (fun m hm1 hm2 => hz m hm1 (by omega))

theorem scanLeft_eq_zero (img : Image) (cy : Nat) :
    ∀ j, (∀ m, m ≤ j → img.pixel m cy = 0) → scanLeft img cy j = 0 := by
  intro j
  induction j with
  | zero => intro _; rfl
  | succ n ih =>
    intro hz
    unfold scanLeft
    rw [if_neg (by simpa using hz (n + 1) (le_refl _))]
    exact ih (fun m hm => hz m (by omega))

theorem scanDown_eq_of_first (img : Image) (cx : Nat) (k : Nat)
    (hk : k < img.height) (hnz : img.pixel cx k ≠ 0) :
    ∀ n i, k - i = n → i ≤ k →
      (∀ m, i ≤ m → m < k → img.pixel cx m = 0) → scanDown img cx i = k := by
  intro n
  induction n with
  | zero =>
    intro i hn hik _
    have : i = k := by omega
    subst this
    rw [scanDown, dif_pos hk, if_pos hnz]
  | succ n ih =>
    intro i hn hik hz
    have hiklt : i < k := by omega
    have hzi : img.pixel cx i = 0 := hz i (le_refl _) hiklt
    rw [scanDown, dif_pos (by omega), if_neg (by simpa using hzi)]
    exact ih (i + 1) (by omega) (by omega) (fun m hm1 hm2 => hz m (by omega) hm2)

theorem scanDown_eq_default (img : Image) (cx : Nat) :
    ∀ n i, img.height - i = n →
      (∀ m, i ≤ m → m < img.height → img.pixel cx m = 0) →
      scanDown img cx i = img.height := by
  intro n
  induction n with
  | zero =>
    intro i hn _
    rw [scanDown, dif_neg (by omega)]
  | succ n ih =>
    intro i hn hz
    have hi : i < img.height := by omega
    rw [scanDown, dif_pos hi, if_neg (by simpa using hz i (le_refl _) hi)]
    exact ih (i + 1) (by omega) (fun m hm1 hm2 => hz m (by omega) hm2)

theorem scanRight_eq_of_first (img : Image) (cy : Nat) (k : Nat)
    (hk : k < img.width) (hnz : img.pixel k cy ≠ 0) :
    ∀ n i, k - i = n → i ≤ k →
      (∀ m, i ≤ m → m < k → img.pixel m cy = 0) → scanRight img cy i = k := by
  intro n
  induction n with
  | zero =>
    intro i hn hik _
    have : i = k := by omega
    subst this
    rw [scanRight, dif_pos hk, if_pos hnz]
  | succ n ih =>
    intro i hn hik hz
    have hiklt : i < k := by omega
    have hzi : img.pixel i cy = 0 := hz i (le_refl _) hiklt
    rw [scanRight, dif_pos (by omega), if_neg (by simpa using hzi)]
    exact ih (i + 1) (by omega) (by omega) (fun m hm1 hm2 => hz m (by omega) hm2)

theorem scanRight_eq_default (img : Image) (cy : Nat) :
    ∀ n i, img.width - i = n →
      (∀ m, i ≤ m → m < img.width → img.pixel m cy = 0) →
      scanRight img cy i = img.width := by
  intro n
  induction n with
  | zero =>
    intro i hn _
    rw [scanRight, dif_neg (by omega)]
  | succ n ih =>
    intro i hn hz
    have hi : i < img.width := by omega
    rw [scanRight, dif_pos hi, if_neg (by simpa using hz i (le_refl _) hi)]
    exact ih (i + 1) (by omega) (fun m hm1 hm2 => hz m (by omega) hm2)

theorem computeInnermostRectangle_eq (img : Image) :
    computeInnermostRectangle img =
      ⟨(scanLeft img (img.height / 2) (img.width / 2) : Int),
       (scanUp img (img.width / 2) (img.height / 2) : Int),
       (scanRight img (img.height / 2) (img.width / 2) : Int)
         - (scanLeft img (img.height / 2) (img.width / 2) : Int),
       (scanDown img (img.width / 2) (img.height / 2) : Int)
         - (scanUp img (img.width / 2) (img.height / 2) : Int)⟩ := rfl

theorem foldl_hist_apply :
    ∀ (L : List Nat) (h0 : Nat → Nat) (b : Nat),
      (L.foldl (fun hst v => fun c => if c = v then hst c + 1 else hst c) h0) b
        = h0 b + L.count b := by
  intro L
  induction L with
  | nil => intro h0 b; simp
  | cons v t ih =>
    intro h0 b
    rw [List.foldl_cons, ih, List.count_cons]
    by_cases hb : b = v
    · simp only [hb, if_pos rfl, beq_self_eq_true, if_true]
      omega
    · simp only [if_neg hb, beq_iff_eq]
      rw [if_neg (fun h => hb h.symm)]
      omega

theorem histCounts_eq_count (img : Image) (b : Nat) :
    histCounts img b = (pixelList img).count b := by
  unfold histCounts
  rw [foldl_hist_apply]
  exact Nat.zero_add _

theorem sum_count_eq_length :
    ∀ (L : List Nat), (∀ v ∈ L, v < 256) →
      (∑ v ∈ Finset.range 256, L.count v) = L.length := by
  intro L
  induction L with
  | nil => intro _; simp
  | cons a t ih =>
    intro hall
    have ha : a < 256 := hall a (List.mem_cons_self a t)
    have hts : ∀ v ∈ t, v < 256 := fun v hv => hall v (List.mem_cons_of_mem a hv)
    simp only [List.count_cons, List.length_cons]
    rw [Finset.sum_add_distrib, ih hts]
    simp only [beq_iff_eq]
    rw [Finset.sum_ite_eq (Finset.range 256) a (fun _ => 1),
      if_pos (Finset.mem_range.mpr ha)]

theorem pixelList_length (img : Image) :
    (pixelList img).length = img.height * img.width := by
  unfold pixelList
  have h : ∀ (l : List Nat),
      (l.flatMap (fun y => (List.range img.width).map (fun x => img.pixel x y))).length
        = l.length * img.width := by
    intro l
    induction l with
    | nil => simp
    | cons a t ih =>
      rw [List.flatMap_cons, List.length_append, ih, List.length_map,
        List.length_range, List.length_cons]
      ring
  rw [h, List.length_range]

theorem foldl_natMax_le {α : Type} (f : α → Nat) :
    ∀ (L : List α) (a c : Nat), a ≤ c → (∀ p ∈ L, f p ≤ c) →
      L.foldl (fun m p => Nat.max m (f p)) a ≤ c := by
  intro L
  induction L with
  | nil => intro a c ha _; exact ha
  | cons q t ih =>
    intro a c ha hall
    rw [List.foldl_cons]
    exact ih _ c (Nat.max_le.mpr ⟨ha, hall q (List.mem_cons_self q t)⟩)
      (fun p hp => hall p (List.mem_cons_of_mem q hp))

theorem init_le_foldl_natMax {α : Type} (f : α → Nat) :
    ∀ (L : List α) (a : Nat), a ≤ L.foldl (fun m p => Nat.max m (f p)) a := by
  intro L
  induction L with
  | nil => intro a; exact le_refl a
  | cons q t ih =>
    intro a
    rw [List.foldl_cons]
    exact le_trans (Nat.le_max_left a (f q)) (ih _)

theorem le_foldl_natMax {α : Type} (f : α → Nat) :
    ∀ (L : List α) (a : Nat) (p : α), p ∈ L →
      f p ≤ L.foldl (fun m p => Nat.max m (f p)) a := by
  intro L
  induction L with
  | nil => intro a p hp; exact absurd hp (List.not_mem_nil p)
  | cons q t ih =>
    intro a p hp
    rw [List.foldl_cons]
    rcases List.mem_cons.mp hp with rfl | hp
    · exact le_trans (Nat.le_max_right a (f p)) (init_le_foldl_natMax f t _)
    · exact ih _ p hp

theorem chebDist_le_center (w h x y : Nat) :
    chebDist w h x y ≤ chebDist w h (w / 2) (h / 2) := by
  unfold chebDist
  omega

theorem maskMax_eq_center (w h : Nat) (hw : 0 < w) (hh : 0 < h) :
    maskMax w h = chebDist w h (w / 2) (h / 2) := by
  refine le_antisymm ?_ ?_
  · exact foldl_natMax_le _ (gelPoints w h) 0 _ (Nat.zero_le _)
      (fun p _ => chebDist_le_center w h p.1 p.2)
  · exact le_foldl_natMax (fun p => chebDist w h p.1 p.2) (gelPoints w h) 0
      (w / 2, h / 2) ((mem_gelPoints _).mpr ⟨by omega, by omega⟩)

theorem chebDist_center_pos (w h : Nat) (hw : 0 < w) (hh : 0 < h) :
    0 < chebDist w h (w / 2) (h / 2) := by
  unfold chebDist
  omega

theorem computeForegroundImagesAux_pos {S : Type} (M : BGModel S) :
    ∀ (l : List Image) (s : S) (i : Nat), 1 ≤ i →
      computeForegroundImagesAux M s i l = foregroundsAll M s l := by
  intro l
  induction l with
  | nil => intro s i _; rfl
  | cons a t ih =>
    intro s i hi
    show (if i + 1 > 1 then [copyMasked a (M.apply s a).2] else [])
        ++ computeForegroundImagesAux M (M.apply s a).1 (i + 1) t
      = copyMasked a (M.apply s a).2 :: foregroundsAll M (M.apply s a).1 t
    rw [if_pos (by omega), ih _ (i + 1) (by omega)]
    rfl

theorem foregroundsAll_length {S : Type} (M : BGModel S) :
    ∀ (l : List Image) (s : S), (foregroundsAll M s l).length = l.length := by
  intro l
  induction l with
  | nil => intro s; rfl
  | cons a t ih =>
    intro s
    show (copyMasked a (M.apply s a).2 :: foregroundsAll M (M.apply s a).1 t).length
      = t.length + 1
    rw [List.length_cons, ih]

theorem foldl_natMin_le_init : ∀ (t : List Nat) (a : Nat), t.foldl Nat.min a ≤ a := by
  intro t
  induction t with
  | nil => intro a; exact le_refl a
  | cons v s ih =>
    intro a
    rw [List.foldl_cons]
    exact le_trans (ih _) (Nat.min_le_left a v)

theorem foldl_natMin_le_mem :
    ∀ (t : List Nat) (a v : Nat), v ∈ t → t.foldl Nat.min a ≤ v := by
  intro t
  induction t with
  | nil => intro a v hv; exact absurd hv (List.not_mem_nil v)
  | cons u s ih =>
    intro a v hv
    rw [List.foldl_cons]
    rcases List.mem_cons.mp hv with rfl | hv
    · exact le_trans (foldl_natMin_le_init s _) (Nat.min_le_right a v)
    · exact ih _ v hv

theorem foldl_natMin_cases :
    ∀ (t : List Nat) (a : Nat), t.foldl Nat.min a = a ∨ t.foldl Nat.min a ∈ t := by
  intro t
  induction t with
  | nil => intro a; left; rfl
  | cons u s ih =>
    intro a
    rw [List.foldl_cons]
    rcases ih (Nat.min a u) with h | h
    · rcases Nat.le_total a u with hle | hle
      · left; rw [h]; exact Nat.min_eq_left hle
      · right
        rw [h]
        have hm : Nat.min a u = u := Nat.min_eq_right hle
        rw [hm]
        exact List.mem_cons_self u s
    · right; exact List.mem_cons_of_mem u h

theorem le_foldl_natMin :
    ∀ (t : List Nat) (a c : Nat), c ≤ a → (∀ v ∈ t, c ≤ v) →
      c ≤ t.foldl Nat.min a := by
  intro t
  induction t with
  | nil => intro a c hc _; exact hc
  | cons u s ih =>
    intro a c hc hall
    rw [List.foldl_cons]
    exact ih _ c (le_min hc (hall u (List.mem_cons_self u s)))
      (fun v hv => hall v (List.mem_cons_of_mem u hv))

theorem foldl_natMax_init_le : ∀ (t : List Nat) (a : Nat), a ≤ t.foldl Nat.max a := by
  intro t
  induction t with
  | nil => intro a; exact le_refl a
  | cons v s ih =>
    intro a
    rw [List.foldl_cons]
    exact le_trans (Nat.le_max_left a v) (ih _)

theorem foldl_natMax_mem_le :
    ∀ (t : List Nat) (a v : Nat), v ∈ t → v ≤ t.foldl Nat.max a := by
  intro t
  induction t with
  | nil => intro a v hv; exact absurd hv (List.not_mem_nil v)
  | cons u s ih =>
    intro a v hv
    rw [List.foldl_cons]
    rcases List.mem_cons.mp hv with rfl | hv
    · exact le_trans (Nat.le_max_right a v) (foldl_natMax_init_le s _)
    · exact ih _ v hv

theorem foldl_natMax_bounded :
    ∀ (t : List Nat) (a c : Nat), a ≤ c → (∀ v ∈ t, v ≤ c) →
      t.foldl Nat.max a ≤ c := by
  intro t
  induction t with
  | nil => intro a c hc _; exact hc
  | cons u s ih =>
    intro a c hc hall
    rw [List.foldl_cons]
    exact ih _ c (max_le hc (hall u (List.mem_cons_self u s)))
      (fun v hv => hall v (List.mem_cons_of_mem u hv))

theorem listMinD_le_mem (l : List Nat) (d v : Nat) (hv : v ∈ l) :
    listMinD l d ≤ v := by
  cases l with
  | nil => exact absurd hv (List.not_mem_nil v)
  | cons a t =>
    show t.foldl Nat.min a ≤ v
    rcases List.mem_cons.mp hv with rfl | hv
    · exact foldl_natMin_le_init t v
    · exact foldl_natMin_le_mem t a v hv

theorem listMinD_mem (l : List Nat) (d : Nat) (hne : l ≠ []) :
    listMinD l d ∈ l := by
  cases l with
  | nil => exact absurd rfl hne
  | cons a t =>
    show t.foldl Nat.min a ∈ a :: t
    rcases foldl_natMin_cases t a with h | h
    · rw [h]; exact List.mem_cons_self a t
    · exact List.mem_cons_of_mem a h

theorem le_listMinD (l : List Nat) (d c : Nat)
    (hall : ∀ v ∈ l, c ≤ v) (hne : l ≠ []) : c ≤ listMinD l d := by
  cases l with
  | nil => exact absurd rfl hne
  | cons a t =>
    show c ≤ t.foldl Nat.min a
    exact le_foldl_natMin t a c (hall a (List.mem_cons_self a t))
      (fun v hv => hall v (List.mem_cons_of_mem a hv))

theorem mem_le_listMaxD (l : List Nat) (d v : Nat) (hv : v ∈ l) :
    v ≤ listMaxD l d := by
  cases l with
  | nil => exact absurd hv (List.not_mem_nil v)
  | cons a t =>
    show v ≤ t.foldl Nat.max a
    rcases List.mem_cons.mp hv with rfl | hv
    · exact foldl_natMax_init_le t v
    · exact foldl_natMax_mem_le t a v hv

theorem listMaxD_le (l : List Nat) (d c : Nat) (hd : d ≤ c)
    (hall : ∀ v ∈ l, v ≤ c) : listMaxD l d ≤ c := by
  cases l with
  | nil => exact hd
  | cons a t =>
    show t.foldl Nat.max a ≤ c
    exact foldl_natMax_bounded t a c (hall a (List.mem_cons_self a t))
      (fun v hv => hall v (List.mem_cons_of_mem a hv))

theorem mem_windowVals {w : Nat} {f : Nat → Nat → Nat} {os : List Int}
    {x y v : Nat} :
    v ∈ windowVals w f os x y ↔
      ∃ o, o ∈ os ∧ 0 ≤ (x : Int) + o ∧ (x : Int) + o < (w : Int) ∧
        v = f ((x : Int) + o).toNat y := by
  unfold windowVals
  rw [List.mem_filterMap]
  constructor
  · rintro ⟨o, ho, he⟩
    by_cases hc : 0 ≤ (x : Int) + o ∧ (x : Int) + o < (w : Int)
    · rw [if_pos hc] at he
      exact ⟨o, ho, hc.1, hc.2, (Option.some.inj he).symm⟩
    · rw [if_neg hc] at he
      cases he
  · rintro ⟨o, ho, h1, h2, rfl⟩
    exact ⟨o, ho, by rw [if_pos ⟨h1, h2⟩]⟩

theorem zero_mem_seOffsets {k : Nat} (hk : 1 ≤ k) : (0 : Int) ∈ seOffsets k := by
  unfold seOffsets
  simp only [List.mem_map, List.mem_range]
  exact ⟨k / 2, by omega, by omega⟩

theorem zero_mem_negOffsets {k : Nat} (hk : 1 ≤ k) :
    (0 : Int) ∈ (seOffsets k).map (fun o => -o) := by
  rw [List.mem_map]
  exact ⟨0, zero_mem_seOffsets hk, by omega⟩

theorem self_mem_windowVals {w : Nat} {f : Nat → Nat → Nat} {os : List Int}
    {x y : Nat} (hx : x < w) (h0 : (0 : Int) ∈ os) :
    f x y ∈ windowVals w f os x y := by
  refine mem_windowVals.mpr ⟨0, h0, by omega, by omega, ?_⟩
  have h : ((x : Int) + 0).toNat = x := by omega
  rw [h]

theorem erodeH_le (k : Nat) (img : Image) (x y : Nat) (o : Int)
    (ho : o ∈ seOffsets k) (h1 : 0 ≤ (x : Int) + o)
    (h2 : (x : Int) + o < (img.width : Int)) :
    (erodeH k img).pixel x y ≤ img.pixel ((x : Int) + o).toNat y :=
  listMinD_le_mem _ 0 _ (mem_windowVals.mpr ⟨o, ho, h1, h2, rfl⟩)

theorem le_erodeH (k : Nat) (img : Image) (x y c : Nat) (hk : 1 ≤ k)
    (hx : x < img.width)
    (hall : ∀ o, o ∈ seOffsets k → 0 ≤ (x : Int) + o →
      (x : Int) + o < (img.width : Int) → c ≤ img.pixel ((x : Int) + o).toNat y) :
    c ≤ (erodeH k img).pixel x y := by
  apply le_listMinD
  · intro v hv
    obtain ⟨o, ho, h1, h2, rfl⟩ := mem_windowVals.mp hv
    exact hall o ho h1 h2
  · exact List.ne_nil_of_mem (self_mem_windowVals hx (zero_mem_seOffsets hk))

theorem dilateH_ge (k : Nat) (img : Image) (x y : Nat) (o : Int)
    (ho : o ∈ seOffsets k) (h1 : 0 ≤ (x : Int) - o)
    (h2 : (x : Int) - o < (img.width : Int)) :
    img.pixel ((x : Int) - o).toNat y ≤ (dilateH k img).pixel x y := by
  apply mem_le_listMaxD _ 0
  refine mem_windowVals.mpr ⟨-o, List.mem_map.mpr ⟨o, ho, rfl⟩, ?_, ?_, ?_⟩
  · omega
  · omega
  · have h : (x : Int) + -o = (x : Int) - o := by ring
    rw [h]

theorem dilateH_le (k : Nat) (img : Image) (x y c : Nat)
    (hall : ∀ o, o ∈ seOffsets k → 0 ≤ (x : Int) - o →
      (x : Int) - o < (img.width : Int) → img.pixel ((x : Int) - o).toNat y ≤ c) :
    (dilateH k img).pixel x y ≤ c := by
  apply listMaxD_le _ 0 _ (Nat.zero_le c)
  intro v hv
  obtain ⟨o', ho', h1, h2, rfl⟩ := mem_windowVals.mp hv
  obtain ⟨o, ho, rfl⟩ := List.mem_map.mp ho'
  have h : (x : Int) + -o = (x : Int) - o := by ring
  rw [h] at h1 h2 ⊢
  exact hall o ho h1 h2

theorem openH_le_self (k : Nat) (img : Image) (x y : Nat) (_hk : 1 ≤ k)
    (hx : x < img.width) :
    (dilateH k (erodeH k img)).pixel x y ≤ img.pixel x y := by
  apply dilateH_le
  intro o ho h1 h2
  have hpix : ((((x : Int) - o).toNat : Int) + o).toNat = x := by omega
  have h1p : 0 ≤ (((x : Int) - o).toNat : Int) + o := by omega
  have h2p : (((x : Int) - o).toNat : Int) + o < ((erodeH k img).width : Int) := by
    show (((x : Int) - o).toNat : Int) + o < (img.width : Int)
    omega
  have he := erodeH_le k img (((x : Int) - o).toNat) y o ho h1p h2p
  rw [hpix] at he
  exact he

theorem le_closeH_self (k : Nat) (img : Image) (x y : Nat) (hk : 1 ≤ k)
    (hx : x < img.width) :
    img.pixel x y ≤ (erodeH k (dilateH k img)).pixel x y := by
  apply le_erodeH k (dilateH k img) x y _ hk hx
  intro o ho h1 h2
  have hpix : ((((x : Int) + o).toNat : Int) - o).toNat = x := by omega
  have h1p : 0 ≤ (((x : Int) + o).toNat : Int) - o := by omega
  have h2p : (((x : Int) + o).toNat : Int) - o < (img.width : Int) := by omega
  have hd := dilateH_ge k img (((x : Int) + o).toNat) y o ho h1p h2p
  rw [hpix] at hd
  exact hd

theorem windowVals_congr (w : Nat) (f1 f2 : Nat → Nat → Nat) (os : List Int)
    (x y : Nat) (h : ∀ p, p < w → f1 p y = f2 p y) :
    windowVals w f1 os x y = windowVals w f2 os x y := by
  unfold windowVals
  induction os with
  | nil => rfl
  | cons o t ih =>
    rw [List.filterMap_cons, List.filterMap_cons, ih]
    by_cases hc : 0 ≤ (x : Int) + o ∧ (x : Int) + o < (w : Int)
    · rw [if_pos hc, if_pos hc, h (((x : Int) + o).toNat) (by omega)]
    · rw [if_neg hc, if_neg hc]

theorem listMinD_windowVals_le (w : Nat) (f1 f2 : Nat → Nat → Nat) (os : List Int)
    (x y : Nat) (h : ∀ p, p < w → f1 p y ≤ f2 p y) :
    listMinD (windowVals w f1 os x y) 0 ≤ listMinD (windowVals w f2 os x y) 0 := by
  by_cases hw2 : windowVals w f2 os x y = []
  · have hw1 : windowVals w f1 os x y = [] := by
      unfold windowVals at hw2 ⊢
      rw [List.filterMap_eq_nil_iff] at hw2 ⊢
      intro o ho
      have := hw2 o ho
      by_cases hc : 0 ≤ (x : Int) + o ∧ (x : Int) + o < (w : Int)
      · rw [if_pos hc] at this
        cases this
      · rw [if_neg hc]
    rw [hw1, hw2]
  · have hmem := listMinD_mem (windowVals w f2 os x y) 0 hw2
    obtain ⟨o, ho, h1, h2, heq⟩ := mem_windowVals.mp hmem
    have hm1 : f1 (((x : Int) + o).toNat) y ∈ windowVals w f1 os x y :=
      mem_windowVals.mpr ⟨o, ho, h1, h2, rfl⟩
    calc listMinD (windowVals w f1 os x y) 0
        ≤ f1 (((x : Int) + o).toNat) y := listMinD_le_mem _ 0 _ hm1
      _ ≤ f2 (((x : Int) + o).toNat) y := h _ (by omega)
      _ = listMinD (windowVals w f2 os x y) 0 := heq.symm

theorem erode_open_erode_eq (k : Nat) (img : Image) (hk : 1 ≤ k) :
    ∀ x y, x < img.width →
      (erodeH k (dilateH k (erodeH k img))).pixel x y = (erodeH k img).pixel x y := by
  intro x y hx
  refine le_antisymm ?_ ?_
  · show listMinD (windowVals img.width (dilateH k (erodeH k img)).pixel
        (seOffsets k) x y) 0
      ≤ listMinD (windowVals img.width img.pixel (seOffsets k) x y) 0
    exact listMinD_windowVals_le img.width _ _ (seOffsets k) x y
      (fun p hp => openH_le_self k img p y hk hp)
  · exact le_closeH_self k (erodeH k img) x y hk hx

/-- Claim C1: for every single-channel image containing at least one
non-zero pixel, `computeGelLocation` returns the bounding rectangle
`Rect(minX, minY, maxX-minX, maxY-minY)` of the non-zero pixels: its
width and height are non-negative, every pixel strictly outside the
inclusive span `[x, x+w] × [y, y+h]` is zero, at least one non-zero
pixel lies on each of the four edges of that span, and if the only
non-zero pixel is at `(x0, y0)` the result is `Rect(x0, y0, 0, 0)`. -/
theorem claim_C1_boundingRectangle (img : Image)
    (hne : ∃ px py, px < img.width ∧ py < img.height ∧ img.pixel px py ≠ 0) :
    (0 ≤ (computeGelLocation img).w ∧ 0 ≤ (computeGelLocation img).h) ∧
    (∀ px py, px < img.width → py < img.height →
      ((px : Int) < (computeGelLocation img).x ∨
       (computeGelLocation img).x + (computeGelLocation img).w < (px : Int) ∨
       (py : Int) < (computeGelLocation img).y ∨
       (computeGelLocation img).y + (computeGelLocation img).h < (py : Int)) →
      img.pixel px py = 0) ∧
    (∃ px py, px < img.width ∧ py < img.height ∧ img.pixel px py ≠ 0 ∧
      (px : Int) = (computeGelLocation img).x) ∧
    (∃ px py, px < img.width ∧ py < img.height ∧ img.pixel px py ≠ 0 ∧
      (px : Int) = (computeGelLocation img).x + (computeGelLocation img).w) ∧
    (∃ px py, px < img.width ∧ py < img.height ∧ img.pixel px py ≠ 0 ∧
      (py : Int) = (computeGelLocation img).y) ∧
    (∃ px py, px < img.width ∧ py < img.height ∧ img.pixel px py ≠ 0 ∧
      (py : Int) = (computeGelLocation img).y + (computeGelLocation img).h) ∧
    (∀ x0 y0, x0 < img.width → y0 < img.height → img.pixel x0 y0 ≠ 0 →
      (∀ px py, px < img.width → py < img.height → img.pixel px py ≠ 0 →
        px = x0 ∧ py = y0) →
      computeGelLocation img = ⟨(x0 : Int), (y0 : Int), 0, 0⟩) := by
  obtain ⟨qx, qy, hqx, hqy, hqnz⟩ := hne
  simp only [computeGelLocation_eq]
  set pts := gelPoints img.width img.height with hpts
  set Lx := gelScalarMin img (fun p => (p.1 : Int)) pts ((img.width : Int) - 1) with hLxd
  set Rx := gelScalarMax img (fun p => (p.1 : Int)) pts 0 with hRxd
  set Ty := gelScalarMin img (fun p => (p.2 : Int)) pts ((img.height : Int) - 1) with hTyd
  set By := gelScalarMax img (fun p => (p.2 : Int)) pts 0 with hByd
  have hq : (qx, qy) ∈ pts := (mem_gelPoints _).mpr ⟨hqx, hqy⟩
  have hqxw : (qx : Int) ≤ (img.width : Int) - 1 := by
    have : (qx : Int) < (img.width : Int) := by exact_mod_cast hqx
    omega
  have hqyh : (qy : Int) ≤ (img.height : Int) - 1 := by
    have : (qy : Int) < (img.height : Int) := by exact_mod_cast hqy
    omega
  have hLx_le : Lx ≤ (qx : Int) := gelScalarMin_le_of_mem img _ pts _ (qx, qy) hq hqnz
  have hRx_ge : (qx : Int) ≤ Rx := gelScalarMax_ge_of_mem img _ pts _ (qx, qy) hq hqnz
  have hTy_le : Ty ≤ (qy : Int) := gelScalarMin_le_of_mem img _ pts _ (qx, qy) hq hqnz
  have hBy_ge : (qy : Int) ≤ By := gelScalarMax_ge_of_mem img _ pts _ (qx, qy) hq hqnz
  have hbounds : ∀ px py, px < img.width → py < img.height → img.pixel px py ≠ 0 →
      Lx ≤ (px : Int) ∧ (px : Int) ≤ Rx ∧ Ty ≤ (py : Int) ∧ (py : Int) ≤ By := by
    intro px py hx hy hnz
    have hmem : (px, py) ∈ pts := (mem_gelPoints _).mpr ⟨hx, hy⟩
    exact ⟨gelScalarMin_le_of_mem img _ pts _ (px, py) hmem hnz,
           gelScalarMax_ge_of_mem img _ pts _ (px, py) hmem hnz,
           gelScalarMin_le_of_mem img _ pts _ (px, py) hmem hnz,
           gelScalarMax_ge_of_mem img _ pts _ (px, py) hmem hnz⟩
  have hLx_att : ∃ p, p ∈ pts ∧ img.pixel p.1 p.2 ≠ 0 ∧ Lx = (p.1 : Int) := by
    rcases gelScalarMin_attains img (fun p => (p.1 : Int)) pts ((img.width : Int) - 1)
      with h | ⟨p, hp, hnz, he⟩
    · exact ⟨(qx, qy), hq, hqnz, by rw [← hLxd] at h; omega⟩
    · exact ⟨p, hp, hnz, by rw [← hLxd] at he; exact he⟩
  have hRx_att : ∃ p, p ∈ pts ∧ img.pixel p.1 p.2 ≠ 0 ∧ Rx = (p.1 : Int) := by
    rcases gelScalarMax_attains img (fun p => (p.1 : Int)) pts 0
      with h | ⟨p, hp, hnz, he⟩
    · refine ⟨(qx, qy), hq, hqnz, ?_⟩
      rw [← hRxd] at h
      have : (0 : Int) ≤ (qx : Int) := Int.ofNat_nonneg qx
      omega
    · exact ⟨p, hp, hnz, by rw [← hRxd] at he; exact he⟩
  have hTy_att : ∃ p, p ∈ pts ∧ img.pixel p.1 p.2 ≠ 0 ∧ Ty = (p.2 : Int) := by
    rcases gelScalarMin_attains img (fun p => (p.2 : Int)) pts ((img.height : Int) - 1)
      with h | ⟨p, hp, hnz, he⟩
    · exact ⟨(qx, qy), hq, hqnz, by rw [← hTyd] at h; omega⟩
    · exact ⟨p, hp, hnz, by rw [← hTyd] at he; exact he⟩
  have hBy_att : ∃ p, p ∈ pts ∧ img.pixel p.1 p.2 ≠ 0 ∧ By = (p.2 : Int) := by
    rcases gelScalarMax_attains img (fun p => (p.2 : Int)) pts 0
      with h | ⟨p, hp, hnz, he⟩
    · refine ⟨(qx, qy), hq, hqnz, ?_⟩
      rw [← hByd] at h
      have : (0 : Int) ≤ (qy : Int) := Int.ofNat_nonneg qy
      omega
    · exact ⟨p, hp, hnz, by rw [← hByd] at he; exact he⟩
  refine ⟨⟨by omega, by omega⟩, ?_, ?_, ?_, ?_, ?_, ?_⟩
  · intro px py hx hy hout
    by_contra hnz
    have hb := hbounds px py hx hy hnz
    rcases hout with h | h | h | h <;> omega
  · obtain ⟨p, hp, hnz, he⟩ := hLx_att
    have hm := (mem_gelPoints p).mp hp
    exact ⟨p.1, p.2, hm.1, hm.2, hnz, by omega⟩
  · obtain ⟨p, hp, hnz, he⟩ := hRx_att
    have hm := (mem_gelPoints p).mp hp
    exact ⟨p.1, p.2, hm.1, hm.2, hnz, by omega⟩
  · obtain ⟨p, hp, hnz, he⟩ := hTy_att
    have hm := (mem_gelPoints p).mp hp
    exact ⟨p.1, p.2, hm.1, hm.2, hnz, by omega⟩
  · obtain ⟨p, hp, hnz, he⟩ := hBy_att
    have hm := (mem_gelPoints p).mp hp
    exact ⟨p.1, p.2, hm.1, hm.2, hnz, by omega⟩
  · intro x0 y0 hx0 hy0 hnz0 huniq
    obtain ⟨p1, hp1, hnz1, he1⟩ := hLx_att
    obtain ⟨p2, hp2, hnz2, he2⟩ := hRx_att
    obtain ⟨p3, hp3, hnz3, he3⟩ := hTy_att
    obtain ⟨p4, hp4, hnz4, he4⟩ := hBy_att
    have hm1 := (mem_gelPoints p1).mp hp1
    have hm2 := (mem_gelPoints p2).mp hp2
    have hm3 := (mem_gelPoints p3).mp hp3
    have hm4 := (mem_gelPoints p4).mp hp4
    have hu1 := huniq p1.1 p1.2 hm1.1 hm1.2 hnz1
    have hu2 := huniq p2.1 p2.2 hm2.1 hm2.2 hnz2
    have hu3 := huniq p3.1 p3.2 hm3.1 hm3.2 hnz3
    have hu4 := huniq p4.1 p4.2 hm4.1 hm4.2 hnz4
    have e1 : Lx = (x0 : Int) := by rw [he1, hu1.1]
    have e2 : Rx = (x0 : Int) := by rw [he2, hu2.1]
    have e3 : Ty = (y0 : Int) := by rw [he3, hu3.2]
    have e4 : By = (y0 : Int) := by rw [he4, hu4.2]
    rw [Rect.mk.injEq]
    refine ⟨e1, e3, by omega, by omega⟩

/-- Witness for claim C1 at the concrete image `imgC1`. -/
theorem claim_C1_boundingRectangle_witness :
    (∃ px py, px < imgC1.width ∧ py < imgC1.height ∧ imgC1.pixel px py ≠ 0) ∧
    ((0 ≤ (computeGelLocation imgC1).w ∧ 0 ≤ (computeGelLocation imgC1).h) ∧
    (∀ px py, px < imgC1.width → py < imgC1.height →
      ((px : Int) < (computeGelLocation imgC1).x ∨
       (computeGelLocation imgC1).x + (computeGelLocation imgC1).w < (px : Int) ∨
       (py : Int) < (computeGelLocation imgC1).y ∨
       (computeGelLocation imgC1).y + (computeGelLocation imgC1).h < (py : Int)) →
      imgC1.pixel px py = 0) ∧
    (∃ px py, px < imgC1.width ∧ py < imgC1.height ∧ imgC1.pixel px py ≠ 0 ∧
      (px : Int) = (computeGelLocation imgC1).x) ∧
    (∃ px py, px < imgC1.width ∧ py < imgC1.height ∧ imgC1.pixel px py ≠ 0 ∧
      (px : Int) = (computeGelLocation imgC1).x + (computeGelLocation imgC1).w) ∧
    (∃ px py, px < imgC1.width ∧ py < imgC1.height ∧ imgC1.pixel px py ≠ 0 ∧
      (py : Int) = (computeGelLocation imgC1).y) ∧
    (∃ px py, px < imgC1.width ∧ py < imgC1.height ∧ imgC1.pixel px py ≠ 0 ∧
      (py : Int) = (computeGelLocation imgC1).y + (computeGelLocation imgC1).h) ∧
    (∀ x0 y0, x0 < imgC1.width → y0 < imgC1.height → imgC1.pixel x0 y0 ≠ 0 →
      (∀ px py, px < imgC1.width → py < imgC1.height → imgC1.pixel px py ≠ 0 →
        px = x0 ∧ py = y0) →
      computeGelLocation imgC1 = ⟨(x0 : Int), (y0 : Int), 0, 0⟩)) :=
  ⟨⟨1, 2, by decide, by decide, by decide⟩,
   claim_C1_boundingRectangle imgC1 ⟨1, 2, by decide, by decide, by decide⟩⟩

/-- Claim C2 counterexample: on the 1×1 all-zero image the sentinel
rectangle is `Rect(0, 0, 0, 0)`, whose width and height are zero, not
negative, so the claim that every all-zero image yields a rectangle of
negative width and height is false. -/
theorem claim_C2_counterexample :
    computeGelLocation imgZero1 = ⟨0, 0, 0, 0⟩ ∧
    ¬((computeGelLocation imgZero1).w < 0 ∧ (computeGelLocation imgZero1).h < 0) := by
  constructor
  · decide
  · decide

/-- Claim C2 (amended): for every all-zero image, `computeGelLocation`
returns, without clamping, the rectangle built from the unchanged
sentinel initializations, `Rect(width-1, height-1, 1-width, 1-height)`;
the resulting width is negative exactly when the image width exceeds 1,
and likewise for the height. -/
theorem claim_C2_amended (img : Image)
    (hz : ∀ px py, px < img.width → py < img.height → img.pixel px py = 0) :
    computeGelLocation img
      = ⟨(img.width : Int) - 1, (img.height : Int) - 1,
         1 - (img.width : Int), 1 - (img.height : Int)⟩ ∧
    (1 < img.width → (computeGelLocation img).w < 0) ∧
    (1 < img.height → (computeGelLocation img).h < 0) := by
  have hnone : ∀ (g : Nat × Nat → Int) (a : Int),
      gelScalarMin img g (gelPoints img.width img.height) a = a := by
    intro g a
    rcases gelScalarMin_attains img g (gelPoints img.width img.height) a
      with h | ⟨p, hp, hnz, _⟩
    · exact h
    · have hm := (mem_gelPoints p).mp hp
      exact absurd (hz p.1 p.2 hm.1 hm.2) hnz
  have hnoneMax : ∀ (g : Nat × Nat → Int) (a : Int),
      gelScalarMax img g (gelPoints img.width img.height) a = a := by
    intro g a
    rcases gelScalarMax_attains img g (gelPoints img.width img.height) a
      with h | ⟨p, hp, hnz, _⟩
    · exact h
    · have hm := (mem_gelPoints p).mp hp
      exact absurd (hz p.1 p.2 hm.1 hm.2) hnz
  have hmain : computeGelLocation img
      = ⟨(img.width : Int) - 1, (img.height : Int) - 1,
         1 - (img.width : Int), 1 - (img.height : Int)⟩ := by
    rw [computeGelLocation_eq img, hnone, hnone, hnoneMax, hnoneMax, Rect.mk.injEq]
    refine ⟨rfl, rfl, by ring, by ring⟩
  refine ⟨hmain, ?_, ?_⟩
  · intro hw
    rw [hmain]
    have : (1 : Int) < (img.width : Int) := by exact_mod_cast hw
    simpa using by omega
  · intro hh
    rw [hmain]
    have : (1 : Int) < (img.height : Int) := by exact_mod_cast hh
    simpa using by omega

/-- Witness for the amended claim C2 at the concrete 2×2 all-zero image. -/
theorem claim_C2_amended_witness :
    (∀ px py, px < imgZero2.width → py < imgZero2.height → imgZero2.pixel px py = 0) ∧
    (computeGelLocation imgZero2
      = ⟨(imgZero2.width : Int) - 1, (imgZero2.height : Int) - 1,
         1 - (imgZero2.width : Int), 1 - (imgZero2.height : Int)⟩ ∧
    (1 < imgZero2.width → (computeGelLocation imgZero2).w < 0) ∧
    (1 < imgZero2.height → (computeGelLocation imgZero2).h < 0)) :=
  ⟨fun _ _ _ _ => rfl, claim_C2_amended imgZero2 (fun _ _ _ _ => rfl)⟩

/-- Claim C3: `computeInnermostRectangle` scans four rays from the
center pixel `(width/2, height/2)`, each stopping at the first non-zero
pixel; a ray reaching the boundary without a hit keeps its default
(0 for up and left, `height` for down, `width` for right); the result
is `Rect(left, up, right-left, down-up)`, and for an all-zero image it
is `Rect(0, 0, width, height)`. -/
theorem claim_C3_innermostRectangle (img : Image)
    (hw : 0 < img.width) (hh : 0 < img.height) :
    (∀ i, i ≤ img.height / 2 → img.pixel (img.width / 2) i ≠ 0 →
      (∀ m, i < m → m ≤ img.height / 2 → img.pixel (img.width / 2) m = 0) →
      (computeInnermostRectangle img).y = (i : Int)) ∧
    ((∀ m, m ≤ img.height / 2 → img.pixel (img.width / 2) m = 0) →
      (computeInnermostRectangle img).y = 0) ∧
    (∀ k, img.height / 2 ≤ k → k < img.height → img.pixel (img.width / 2) k ≠ 0 →
      (∀ m, img.height / 2 ≤ m → m < k → img.pixel (img.width / 2) m = 0) →
      (computeInnermostRectangle img).y + (computeInnermostRectangle img).h = (k : Int)) ∧
    ((∀ m, img.height / 2 ≤ m → m < img.height → img.pixel (img.width / 2) m = 0) →
      (computeInnermostRectangle img).y + (computeInnermostRectangle img).h
        = (img.height : Int)) ∧
    (∀ i, i ≤ img.width / 2 → img.pixel i (img.height / 2) ≠ 0 →
      (∀ m, i < m → m ≤ img.width / 2 → img.pixel m (img.height / 2) = 0) →
      (computeInnermostRectangle img).x = (i : Int)) ∧
    ((∀ m, m ≤ img.width / 2 → img.pixel m (img.height / 2) = 0) →
      (computeInnermostRectangle img).x = 0) ∧
    (∀ k, img.width / 2 ≤ k → k < img.width → img.pixel k (img.height / 2) ≠ 0 →
      (∀ m, img.width / 2 ≤ m → m < k → img.pixel m (img.height / 2) = 0) →
      (computeInnermostRectangle img).x + (computeInnermostRectangle img).w = (k : Int)) ∧
    ((∀ m, img.width / 2 ≤ m → m < img.width → img.pixel m (img.height / 2) = 0) →
      (computeInnermostRectangle img).x + (computeInnermostRectangle img).w
        = (img.width : Int)) ∧
    ((∀ px py, px < img.width → py < img.height → img.pixel px py = 0) →
      computeInnermostRectangle img = ⟨0, 0, (img.width : Int), (img.height : Int)⟩) := by
  simp only [computeInnermostRectangle_eq]
  refine ⟨?_, ?_, ?_, ?_, ?_, ?_, ?_, ?_, ?_⟩
  · intro i hi hnz hz
    rw [scanUp_eq_of_first img (img.width / 2) i (img.height / 2) hi hnz hz]
  · intro hz
    rw [scanUp_eq_zero img (img.width / 2) (img.height / 2) hz]
    rfl
  · intro k hk1 hk2 hnz hz
    rw [scanDown_eq_of_first img (img.width / 2) k hk2 hnz
      (k - img.height / 2) (img.height / 2) rfl hk1 hz]
    ring
  · intro hz
    rw [scanDown_eq_default img (img.width / 2)
      (img.height - img.height / 2) (img.height / 2) rfl hz]
    ring
  · intro i hi hnz hz
    rw [scanLeft_eq_of_first img (img.height / 2) i (img.width / 2) hi hnz hz]
  · intro hz
    rw [scanLeft_eq_zero img (img.height / 2) (img.width / 2) hz]
    rfl
  · intro k hk1 hk2 hnz hz
    rw [scanRight_eq_of_first img (img.height / 2) k hk2 hnz
      (k - img.width / 2) (img.width / 2) rfl hk1 hz]
    ring
  · intro hz
    rw [scanRight_eq_default img (img.height / 2)
      (img.width - img.width / 2) (img.width / 2) rfl hz]
    ring
  · intro hz
    have hcx : img.width / 2 < img.width := by omega
    rw [scanUp_eq_zero img (img.width / 2) (img.height / 2)
        (fun m hm => hz _ m hcx (by omega)),
      scanDown_eq_default img (img.width / 2)
        (img.height - img.height / 2) (img.height / 2) rfl
        (fun m _ hm2 => hz _ m hcx hm2),
      scanLeft_eq_zero img (img.height / 2) (img.width / 2)
        (fun m hm => hz m _ (by omega) (by omega)),
      scanRight_eq_default img (img.height / 2)
        (img.width - img.width / 2) (img.width / 2) rfl
        (fun m _ hm2 => hz m _ hm2 (by omega))]
    rw [Rect.mk.injEq]
    refine ⟨rfl, rfl, by ring, by ring⟩

/-- Witness for claim C3 at the concrete image `imgC3`. -/
theorem claim_C3_innermostRectangle_witness :
    0 < imgC3.width ∧ 0 < imgC3.height ∧
    ((∀ i, i ≤ imgC3.height / 2 → imgC3.pixel (imgC3.width / 2) i ≠ 0 →
      (∀ m, i < m → m ≤ imgC3.height / 2 → imgC3.pixel (imgC3.width / 2) m = 0) →
      (computeInnermostRectangle imgC3).y = (i : Int)) ∧
    ((∀ m, m ≤ imgC3.height / 2 → imgC3.pixel (imgC3.width / 2) m = 0) →
      (computeInnermostRectangle imgC3).y = 0) ∧
    (∀ k, imgC3.height / 2 ≤ k → k < imgC3.height → imgC3.pixel (imgC3.width / 2) k ≠ 0 →
      (∀ m, imgC3.height / 2 ≤ m → m < k → imgC3.pixel (imgC3.width / 2) m = 0) →
      (computeInnermostRectangle imgC3).y + (computeInnermostRectangle imgC3).h = (k : Int)) ∧
    ((∀ m, imgC3.height / 2 ≤ m → m < imgC3.height → imgC3.pixel (imgC3.width / 2) m = 0) →
      (computeInnermostRectangle imgC3).y + (computeInnermostRectangle imgC3).h
        = (imgC3.height : Int)) ∧
    (∀ i, i ≤ imgC3.width / 2 → imgC3.pixel i (imgC3.height / 2) ≠ 0 →
      (∀ m, i < m → m ≤ imgC3.width / 2 → imgC3.pixel m (imgC3.height / 2) = 0) →
      (computeInnermostRectangle imgC3).x = (i : Int)) ∧
    ((∀ m, m ≤ imgC3.width / 2 → imgC3.pixel m (imgC3.height / 2) = 0) →
      (computeInnermostRectangle imgC3).x = 0) ∧
    (∀ k, imgC3.width / 2 ≤ k → k < imgC3.width → imgC3.pixel k (imgC3.height / 2) ≠ 0 →
      (∀ m, imgC3.width / 2 ≤ m → m < k → imgC3.pixel m (imgC3.height / 2) = 0) →
      (computeInnermostRectangle imgC3).x + (computeInnermostRectangle imgC3).w = (k : Int)) ∧
    ((∀ m, imgC3.width / 2 ≤ m → m < imgC3.width → imgC3.pixel m (imgC3.height / 2) = 0) →
      (computeInnermostRectangle imgC3).x + (computeInnermostRectangle imgC3).w
        = (imgC3.width : Int)) ∧
    ((∀ px py, px < imgC3.width → py < imgC3.height → imgC3.pixel px py = 0) →
      computeInnermostRectangle imgC3 = ⟨0, 0, (imgC3.width : Int), (imgC3.height : Int)⟩)) :=
  ⟨by decide, by decide, claim_C3_innermostRectangle imgC3 (by decide) (by decide)⟩

/-- Claim C10: if the center pixel `(width/2, height/2)` is non-zero,
every ray scan stops immediately at the center, so
`computeInnermostRectangle` returns the zero-sized rectangle
`Rect(width/2, height/2, 0, 0)`. -/
theorem claim_C10_centerNonzero (img : Image)
    (hw : 0 < img.width) (hh : 0 < img.height)
    (hc : img.pixel (img.width / 2) (img.height / 2) ≠ 0) :
    computeInnermostRectangle img
      = ⟨((img.width / 2 : Nat) : Int), ((img.height / 2 : Nat) : Int), 0, 0⟩ := by
  rw [computeInnermostRectangle_eq]
  rw [scanUp_eq_of_first img (img.width / 2) (img.height / 2) (img.height / 2)
      (le_refl _) hc (fun m h1 h2 => absurd h2 (by omega)),
    scanDown_eq_of_first img (img.width / 2) (img.height / 2) (by omega) hc
      0 (img.height / 2) (by omega) (le_refl _) (fun m h1 h2 => absurd h1 (by omega)),
    scanLeft_eq_of_first img (img.height / 2) (img.width / 2) (img.width / 2)
      (le_refl _) hc (fun m h1 h2 => absurd h2 (by omega)),
    scanRight_eq_of_first img (img.height / 2) (img.width / 2) (by omega) hc
      0 (img.width / 2) (by omega) (le_refl _) (fun m h1 h2 => absurd h1 (by omega))]
  rw [Rect.mk.injEq]
  refine ⟨rfl, rfl, by ring, by ring⟩

/-- Witness for claim C10 at the concrete image `imgC10`. -/
theorem claim_C10_centerNonzero_witness :
    0 < imgC10.width ∧ 0 < imgC10.height ∧
    imgC10.pixel (imgC10.width / 2) (imgC10.height / 2) ≠ 0 ∧
    computeInnermostRectangle imgC10
      = ⟨((imgC10.width / 2 : Nat) : Int), ((imgC10.height / 2 : Nat) : Int), 0, 0⟩ :=
  ⟨by decide, by decide, by decide,
   claim_C10_centerNonzero imgC10 (by decide) (by decide) (by decide)⟩

/-- Claim C9: the 256 histogram bin counts of `plotHistogram` sum
exactly to `width × height` of the source image (pixel values of a
single-channel byte image lie below 256). -/
theorem claim_C9_histogramSum (img : Image)
    (hb : ∀ px py, px < img.width → py < img.height → img.pixel px py < 256) :
    (∑ v ∈ Finset.range 256, histCounts img v) = img.width * img.height := by
  have hmem : ∀ v ∈ pixelList img, v < 256 := by
    intro v hv
    simp only [pixelList, List.mem_flatMap, List.mem_map, List.mem_range] at hv
    obtain ⟨y, hy, x, hx, rfl⟩ := hv
    exact hb x y hx hy
  calc (∑ v ∈ Finset.range 256, histCounts img v)
      = ∑ v ∈ Finset.range 256, (pixelList img).count v :=
        Finset.sum_congr rfl (fun v _ => histCounts_eq_count img v)
    _ = (pixelList img).length := sum_count_eq_length _ hmem
    _ = img.height * img.width := pixelList_length img
    _ = img.width * img.height := Nat.mul_comm _ _

/-- Witness for claim C9 at the concrete image `imgC9`. -/
theorem claim_C9_histogramSum_witness :
    (∀ px py, px < imgC9.width → py < imgC9.height → imgC9.pixel px py < 256) ∧
    (∑ v ∈ Finset.range 256, histCounts imgC9 v) = imgC9.width * imgC9.height :=
  ⟨fun _ _ _ _ => (by decide : (7 : Nat) < 256),
   claim_C9_histogramSum imgC9 (fun _ _ _ _ => (by decide : (7 : Nat) < 256))⟩

/-- Claim C4 evaluation at the failing input: for an image with no
pixels every bin count is 0, so the maximum bin count `max` computed by
`plotHistogram` is 0.  The C++ then evaluates
`hist[bin] * WINDOW_HEIGHT / max` with `max == 0` — an unguarded
floating-point `0.0/0.0` whose `static_cast<int>` is undefined — so the
guard the claim describes does not exist in the code. -/
theorem claim_C4_histMaxZero :
    histMax emptyImage = 0 ∧ (∀ b, histCounts emptyImage b = 0) := by
  constructor
  · decide
  · intro b
    rfl

/-- Claim C5 counterexample: for the 4×4 mask, the value one pixel
above the center pixel (2, 2) equals the center value 1, so the mask
does not strictly decrease along the upward axis-aligned ray. -/
theorem claim_C5_counterexample :
    generateEnhancedCenterMask 4 4 2 2 = 1 ∧
    generateEnhancedCenterMask 4 4 2 1 = 1 ∧
    ¬(generateEnhancedCenterMask 4 4 2 1 < generateEnhancedCenterMask 4 4 2 2) := by
  have h1 : chebDist 4 4 2 2 = 2 := by decide
  have h2 : chebDist 4 4 2 1 = 2 := by decide
  have h3 : maskMax 4 4 = 2 := by decide
  unfold generateEnhancedCenterMask
  rw [h1, h2, h3]
  norm_num

/-- Claim C5 (amended): the mask value at the center pixel
`(w/2, h/2)` is 1, the maximum attainable value; moving outward from
the center along any axis-aligned ray the values are monotonically
non-increasing (strict decrease fails in general, e.g. for even
dimensions the Chebyshev distance plateaus next to the center). -/
theorem claim_C5_amended (w h : Nat) (hw : 0 < w) (hh : 0 < h) :
    generateEnhancedCenterMask w h (w / 2) (h / 2) = 1 ∧
    (∀ x y, generateEnhancedCenterMask w h x y ≤ 1) ∧
    (∀ x, w / 2 ≤ x → x + 1 < w →
      generateEnhancedCenterMask w h (x + 1) (h / 2)
        ≤ generateEnhancedCenterMask w h x (h / 2)) ∧
    (∀ x, x < w / 2 →
      generateEnhancedCenterMask w h x (h / 2)
        ≤ generateEnhancedCenterMask w h (x + 1) (h / 2)) ∧
    (∀ y, h / 2 ≤ y → y + 1 < h →
      generateEnhancedCenterMask w h (w / 2) (y + 1)
        ≤ generateEnhancedCenterMask w h (w / 2) y) ∧
    (∀ y, y < h / 2 →
      generateEnhancedCenterMask w h (w / 2) y
        ≤ generateEnhancedCenterMask w h (w / 2) (y + 1)) := by
  have hM := maskMax_eq_center w h hw hh
  have hMpos : 0 < maskMax w h := by
    rw [hM]; exact chebDist_center_pos w h hw hh
  have hMposQ : (0 : ℚ) < (maskMax w h : ℚ) := by exact_mod_cast hMpos
  have hmono : ∀ x1 y1 x2 y2, chebDist w h x1 y1 ≤ chebDist w h x2 y2 →
      generateEnhancedCenterMask w h x1 y1 ≤ generateEnhancedCenterMask w h x2 y2 := by
    intro x1 y1 x2 y2 hle
    unfold generateEnhancedCenterMask
    exact (div_le_div_iff_of_pos_right hMposQ).mpr (by exact_mod_cast hle)
  refine ⟨?_, ?_, ?_, ?_, ?_, ?_⟩
  · unfold generateEnhancedCenterMask
    rw [← hM]
    exact div_self (ne_of_gt hMposQ)
  · intro x y
    unfold generateEnhancedCenterMask
    rw [div_le_one hMposQ]
    have hc := chebDist_le_center w h x y
    rw [← hM] at hc
    exact_mod_cast hc
  · intro x hx1 hx2
    exact hmono _ _ _ _ (by unfold chebDist; omega)
  · intro x hx
    exact hmono _ _ _ _ (by unfold chebDist; omega)
  · intro y hy1 hy2
    exact hmono _ _ _ _ (by unfold chebDist; omega)
  · intro y hy
    exact hmono _ _ _ _ (by unfold chebDist; omega)

/-- Witness for the amended claim C5 at the concrete size 5×5. -/
theorem claim_C5_amended_witness :
    0 < (5 : Nat) ∧
    (generateEnhancedCenterMask 5 5 (5 / 2) (5 / 2) = 1 ∧
    (∀ x y, generateEnhancedCenterMask 5 5 x y ≤ 1) ∧
    (∀ x, 5 / 2 ≤ x → x + 1 < 5 →
      generateEnhancedCenterMask 5 5 (x + 1) (5 / 2)
        ≤ generateEnhancedCenterMask 5 5 x (5 / 2)) ∧
    (∀ x, x < 5 / 2 →
      generateEnhancedCenterMask 5 5 x (5 / 2)
        ≤ generateEnhancedCenterMask 5 5 (x + 1) (5 / 2)) ∧
    (∀ y, 5 / 2 ≤ y → y + 1 < 5 →
      generateEnhancedCenterMask 5 5 (5 / 2) (y + 1)
        ≤ generateEnhancedCenterMask 5 5 (5 / 2) y) ∧
    (∀ y, y < 5 / 2 →
      generateEnhancedCenterMask 5 5 (5 / 2) y
        ≤ generateEnhancedCenterMask 5 5 (5 / 2) (y + 1))) :=
  ⟨by decide, claim_C5_amended 5 5 (by decide) (by decide)⟩

/-- Claim C6: for any estimator and any ordered sequence of N frames,
`computeForegroundImages` returns exactly N-1 foreground frames (in
particular at most N-1, and the empty sequence yields the empty
sequence, not an error); the result consists of the per-frame outputs
of every frame after the first, so the output derived from the first
frame is never included even though the first frame is fed to the
estimator. -/
theorem claim_C6_foregroundImages {S : Type} (M : BGModel S) (images : List Image) :
    (computeForegroundImages M images).length = images.length - 1 ∧
    computeForegroundImages M images =
      (match images with
       | [] => []
       | a :: rest => foregroundsAll M (M.apply M.init a).1 rest) ∧
    computeForegroundImages M ([] : List Image) = [] := by
  have hm : computeForegroundImages M images =
      (match images with
       | [] => []
       | a :: rest => foregroundsAll M (M.apply M.init a).1 rest) := by
    cases images with
    | nil => rfl
    | cons a rest =>
      show (if 0 + 1 > 1 then [copyMasked a (M.apply M.init a).2] else [])
          ++ computeForegroundImagesAux M (M.apply M.init a).1 (0 + 1) rest
        = foregroundsAll M (M.apply M.init a).1 rest
      rw [if_neg (by omega), List.nil_append,
        computeForegroundImagesAux_pos M rest _ (0 + 1) (le_refl 1)]
  refine ⟨?_, hm, rfl⟩
  rw [hm]
  cases images with
  | nil => rfl
  | cons a rest =>
    show (foregroundsAll M (M.apply M.init a).1 rest).length = rest.length + 1 - 1
    rw [foregroundsAll_length]
    omega

/-- Claim C7: applying `findLargestHorizontalLines` twice yields the
same image as applying it once — the structuring element width
`width/2` is unchanged because the first application preserves the
image dimensions, and morphological opening with a fixed flat element
is idempotent. -/
theorem claim_C7_idempotent (img : Image) (hw : 2 ≤ img.width) :
    findLargestHorizontalLines (findLargestHorizontalLines img)
      = findLargestHorizontalLines img := by
  have hk : 1 ≤ img.width / 2 := by omega
  show dilateH (img.width / 2)
      (erodeH (img.width / 2) (dilateH (img.width / 2) (erodeH (img.width / 2) img)))
    = dilateH (img.width / 2) (erodeH (img.width / 2) img)
  show (⟨img.width, img.height, fun x y =>
      listMaxD (windowVals img.width
        (erodeH (img.width / 2) (dilateH (img.width / 2)
          (erodeH (img.width / 2) img))).pixel
        ((seOffsets (img.width / 2)).map (fun o => -o)) x y) 0⟩ : Image)
    = ⟨img.width, img.height, fun x y =>
      listMaxD (windowVals img.width (erodeH (img.width / 2) img).pixel
        ((seOffsets (img.width / 2)).map (fun o => -o)) x y) 0⟩
  apply congrArg (Image.mk img.width img.height)
  funext x y
  apply congrArg (fun l => listMaxD l 0)
  exact windowVals_congr img.width _ _ _ x y
    (fun p hp => erode_open_erode_eq (img.width / 2) img hk p y hp)

/-- Witness for claim C7 at the concrete image `imgC7`. -/
theorem claim_C7_idempotent_witness :
    2 ≤ imgC7.width ∧
    findLargestHorizontalLines (findLargestHorizontalLines imgC7)
      = findLargestHorizontalLines imgC7 :=
  ⟨by decide, claim_C7_idempotent imgC7 (by decide)⟩

/-- Claim C8 counterexample: at pixel (1, 1) of `imgC8` the x-Sobel
response is -1020; the code computes it at depth CV_8UC1, clamping it
to 0 before the absolute-value scaling, and outputs 0, while the
gradient described by the claim (absolute value of the raw response,
then byte scaling) is 128. -/
theorem claim_C8_counterexample :
    (computeGradientImage imgC8).pixel 1 1 = 0 ∧
    specGradientPixel imgC8 1 1 = 128 ∧
    (computeGradientImage imgC8).pixel 1 1 ≠ specGradientPixel imgC8 1 1 := by
  refine ⟨by decide, by decide, by decide⟩

/-- Claim C8 (amended): `computeGradientImage` preserves the image
dimensions and every pixel equals the byte-rounded average
`0.5·sx + 0.5·sy` where `sx`, `sy` are the 3×3 Sobel responses
saturated directly into the byte range (ddepth CV_8UC1, so negative
responses become 0), computed with reflect-style border extension; the
subsequent absolute-value scaling step is the identity on the already
non-negative byte data, and the final sum needs no extra clamping. -/
theorem claim_C8_amended (img : Image) :
    (computeGradientImage img).width = img.width ∧
    (computeGradientImage img).height = img.height ∧
    (∀ x y, (computeGradientImage img).pixel x y
      = roundHalfEvenHalf
          (saturateByte (sobelXRaw img x y) + saturateByte (sobelYRaw img x y))) := by
  refine ⟨rfl, rfl, ?_⟩
  intro x y
  have hsat : ∀ w : Int, saturateByte w ≤ 255 := by
    intro w
    unfold saturateByte
    split_ifs <;> omega
  have habs : ∀ v : Nat, v ≤ 255 → convertScaleAbsByte v = v := by
    intro v hv
    unfold convertScaleAbsByte saturateByte
    split_ifs <;> omega
  show addWeightedHalf (convertScaleAbsByte (sobelX8 img x y))
      (convertScaleAbsByte (sobelY8 img x y)) = _
  rw [habs (sobelX8 img x y) (hsat (sobelXRaw img x y)),
    habs (sobelY8 img x y) (hsat (sobelYRaw img x y))]
  have h1 := hsat (sobelXRaw img x y)
  have h2 := hsat (sobelYRaw img x y)
  show saturateByte ((roundHalfEvenHalf
      (saturateByte (sobelXRaw img x y) + saturateByte (sobelYRaw img x y)) : Nat) : Int)
    = _
  have hr : roundHalfEvenHalf
      (saturateByte (sobelXRaw img x y) + saturateByte (sobelYRaw img x y)) ≤ 255 := by
    unfold roundHalfEvenHalf
    split_ifs <;> omega
  have hs : ∀ r : Nat, r ≤ 255 → saturateByte ((r : Nat) : Int) = r := by
    intro r hrr
    unfold saturateByte
    split_ifs <;> omega
  exact hs _ hr

end Autocropper
